import Mathlib

/-!
Verification development for the wordref core of the `rabot` bot.

Strings of the Python source are modelled as `List Char`.  Each definition
is a shallow embedding of the function of the same (or clearly related)
name in the source tree:

* `lcs`, `normalize_greek_word`, `get_delta`, `highlight_synonyms`
  come from `rabot/cogs/wordref/longest.py`;
* `parse_words` (and its stripping loop), `Wordref.fetch_embed` and
  `Wordref.try_fetch_embed` come from `rabot/cogs/wordref/wordref.py`;
* the `Entry` data class, `is_valid_entry`, `is_valid_embed`,
  `sort_sentences_by_contains_word` and `get_embed` come from
  `rabot/cogs/wordref/entry.py`;
* `templ_wordref` comes from `rabot/main.py`.

Python `while` loops are embedded as structurally recursive functions on
an explicit iteration budget ("fuel") chosen so large that the source
loop provably exits before the budget is exhausted (the accompanying
lemmas establish this), keeping every definition kernel-evaluable.
Python exceptions (`ZeroDivisionError`) are embedded as `Option`.
-/

/-! ## Similarity engine (`longest.py`)

`lcs` embeds the source verbatim.  The inner `while True` of the source
increments `i` only while `i < len(a)`, so starting from `i = 1` it makes
at most `len(a) - 1` steps; `a.length` is therefore a sufficient budget.
The outer `while a` drops at least one character of `a` per iteration
(the inner loop returns `i ≥ 1`), so `a.length` iterations suffice. -/

/-- Python's substring containment operator `pat in s`. -/
def pyIn (pat : List Char) : List Char → Bool
  | [] => pat.isEmpty
  | c :: rest => pat.isPrefixOf (c :: rest) || pyIn pat rest

def lcsInner (a b : List Char) : Nat → Nat → Nat
  | 0, i => i
  | fuel + 1, i =>
    if pyIn (a.take i) b ∧ i < a.length then lcsInner a b fuel (i + 1) else i

def lcsGo (b : List Char) : Nat → List Char → Nat → Nat
  | 0, _, var => var
  | _ + 1, [], var => var
  | fuel + 1, a, var =>
    lcsGo b fuel (a.drop (lcsInner a b a.length 1)) (max (lcsInner a b a.length 1 - 1) var)

/-- Embeds `lcs(a, b)` of `longest.py`: short-circuit on `a == b`, else the
greedy left-to-right consumption loop of the source. -/
def lcs (a b : List Char) : Nat :=
  if a = b then a.length else lcsGo b a.length a 0

/-- All contiguous substrings of `a` (with duplicates). -/
def substrsOf (a : List Char) : List (List Char) :=
  (List.range (a.length + 1)).flatMap fun i =>
    (List.range (a.length + 1 - i)).map fun n => ((a.drop i).take n)

/-- Modelled from the spec's words, for comparison with the source's `lcs`:
"the length of the longest contiguous run of characters in `a` that also
occurs (contiguously) as a substring of `b`". -/
def lcsSpec (a b : List Char) : Nat :=
  ((substrsOf a).filter (fun s => pyIn s b)).foldr (fun s acc => max s.length acc) 0

/-! Normalisation.  `normalize_greek_word` applies `unicodedata.normalize
("NFKD", ...)`, `str.casefold` and then drops combining characters.  The
Unicode data is embedded for the character repertoire the program works
on (the Greek alphabet with its accents, plus ASCII letters); characters
outside the embedded tables are left untouched, and canonical reordering
of multiple combining marks (which the repertoire never triggers) is not
modelled. -/

/-- NFKD decompositions of the precomposed accented Greek letters. -/
def nfkdTable : List (Char × List Char) :=
  [ ('Ά', ['Α', '́']), ('Έ', ['Ε', '́']), ('Ή', ['Η', '́']),
    ('Ί', ['Ι', '́']), ('Ό', ['Ο', '́']), ('Ύ', ['Υ', '́']),
    ('Ώ', ['Ω', '́']),
    ('ά', ['α', '́']), ('έ', ['ε', '́']), ('ή', ['η', '́']),
    ('ί', ['ι', '́']), ('ό', ['ο', '́']), ('ύ', ['υ', '́']),
    ('ώ', ['ω', '́']),
    ('ϊ', ['ι', '̈']), ('ϋ', ['υ', '̈']),
    ('Ϊ', ['Ι', '̈']), ('Ϋ', ['Υ', '̈']),
    ('ΐ', ['ι', '̈', '́']), ('ΰ', ['υ', '̈', '́']) ]

/-- Case foldings: Greek capitals, final sigma, the combining
ypogegrammeni (which `str.casefold` maps to a plain iota), and ASCII. -/
def casefoldTable : List (Char × List Char) :=
  [ ('Α', ['α']), ('Β', ['β']), ('Γ', ['γ']), ('Δ', ['δ']), ('Ε', ['ε']),
    ('Ζ', ['ζ']), ('Η', ['η']), ('Θ', ['θ']), ('Ι', ['ι']), ('Κ', ['κ']),
    ('Λ', ['λ']), ('Μ', ['μ']), ('Ν', ['ν']), ('Ξ', ['ξ']), ('Ο', ['ο']),
    ('Π', ['π']), ('Ρ', ['ρ']), ('Σ', ['σ']), ('Τ', ['τ']), ('Υ', ['υ']),
    ('Φ', ['φ']), ('Χ', ['χ']), ('Ψ', ['ψ']), ('Ω', ['ω']),
    ('ς', ['σ']), ('ͅ', ['ι']),
    ('A', ['a']), ('B', ['b']), ('C', ['c']), ('D', ['d']), ('E', ['e']),
    ('F', ['f']), ('G', ['g']), ('H', ['h']), ('I', ['i']), ('J', ['j']),
    ('K', ['k']), ('L', ['l']), ('M', ['m']), ('N', ['n']), ('O', ['o']),
    ('P', ['p']), ('Q', ['q']), ('R', ['r']), ('S', ['s']), ('T', ['t']),
    ('U', ['u']), ('V', ['v']), ('W', ['w']), ('X', ['x']), ('Y', ['y']),
    ('Z', ['z']) ]

def nfkdChar (c : Char) : List Char :=
  match nfkdTable.lookup c with
  | some l => l
  | none => [c]

def casefoldChar (c : Char) : List Char :=
  match casefoldTable.lookup c with
  | some l => l
  | none => [c]

/-- `unicodedata.combining(c) != 0` for the combining-diacritics block. -/
def combiningChar (c : Char) : Bool :=
  decide (0x300 ≤ c.toNat ∧ c.toNat ≤ 0x36F)

/-- Embeds `normalize_greek_word` of `longest.py`: NFKD-decompose,
casefold, drop combining characters. -/
def normalize_greek_word (w : List Char) : List Char :=
  ((w.flatMap nfkdChar).flatMap casefoldChar).filter (fun c => !(combiningChar c))

/-- The per-character action of `normalize_greek_word`. -/
def normChar (c : Char) : List Char :=
  ((nfkdChar c).flatMap casefoldChar).filter (fun c => !(combiningChar c))

/-- Embeds `get_delta` of `longest.py`.  Python's true division is modelled
in `ℚ`; the `ZeroDivisionError` raised when both normalised words are
empty is modelled as `none`. -/
def get_delta (a b : List Char) : Option ℚ :=
  let aa := normalize_greek_word a
  let bb := normalize_greek_word b
  let max_length := max aa.length bb.length
  let m := max (lcs aa bb) (lcs bb aa)
  if max_length = 0 then none
  else some (Rat.divInt ((max_length : Int) - (m : Int)) (max_length : Int))

/-! ## Synonym highlighting (`longest.py: highlight_synonyms`) -/

/-- Python `str.split()` with no argument: split on whitespace runs,
discarding empty pieces. -/
def pySplitGo (acc : List Char) : List Char → List (List Char)
  | [] => if acc.isEmpty then [] else [acc.reverse]
  | c :: rest =>
    if c.isWhitespace then
      if acc.isEmpty then pySplitGo [] rest else acc.reverse :: pySplitGo [] rest
    else pySplitGo (c :: acc) rest

def pySplit (s : List Char) : List (List Char) :=
  pySplitGo [] s

/-- The source iterates over `set(sentence.split())`; CPython's set
iteration order is unspecified, and is modelled here as first-occurrence
order. -/
def pyDedup : List (List Char) → List (List Char)
  | [] => []
  | w :: rest => w :: (pyDedup rest).filter (fun v => v ≠ w)

/-- `re.sub(r"\(|\)|,|\.|", "", word)`: the alternation (whose last branch
is empty, matching nothing extra) deletes parentheses, commas and dots. -/
def stripPunct (w : List Char) : List Char :=
  w.filter (fun c => !(c = '(' || c = ')' || c = ',' || c = '.'))

/-- `dif <= 0.3` on the result of `get_delta`; the source would raise
`ZeroDivisionError` in the `none` case, which no caller reaches with a
matching synonym, so it is modelled as a non-match. -/
def synMatches (w ref : List Char) : Bool :=
  match get_delta w ref with
  | some q => decide (q ≤ Rat.divInt 3 10)
  | none => false

/-- Python `s.replace(pat, rep)` (all non-overlapping occurrences).  The
fuel `s.length` suffices because every replacement consumes at least one
character of `s` (`pat ≠ []` is guarded). -/
def pyReplaceGo (pat rep : List Char) : Nat → List Char → List Char
  | 0, s => s
  | _ + 1, [] => []
  | fuel + 1, c :: rest =>
    if pat.isPrefixOf (c :: rest) then rep ++ pyReplaceGo pat rep fuel ((c :: rest).drop pat.length)
    else c :: pyReplaceGo pat rep fuel rest

def pyReplace (s pat rep : List Char) : List Char :=
  if pat.isEmpty then s else pyReplaceGo pat rep s.length s

/-- Embeds `highlight_synonyms` of `longest.py`: for each distinct
whitespace-token of the sentence, strip punctuation, and if some synonym
is within delta `0.3`, bold every occurrence of the stripped token. -/
def highlight_synonyms (sentence : List Char) (synonyms : List (List Char)) : List Char :=
  (pyDedup (pySplit sentence)).foldl
    (fun sen w =>
      let ws := stripPunct w
      if synonyms.any (fun ref => synMatches ws ref) then
        pyReplace sen ws (('*' :: '*' :: ws) ++ ['*', '*'])
      else sen)
    sentence

/-! ## Annotation stripping (`wordref.py: parse_words`) -/

/-- `is_english` of `utils.py`: every code point below 200. -/
def is_english (w : List Char) : Bool :=
  w.all (fun c => c.toNat < 200)

/-- The keys of `ATTRIBUTES_EL` in insertion order. -/
def ATTRIBUTES_EL : List (List Char) :=
  [ ("επίθ").data, ("επίθ άκλ").data, ("φρ ως").data, ("ουσ ουδ").data,
    ("ουσ αρσ").data, ("ουσ θηλ").data, ("ρ έκφρ").data, ("ρ αμ + επίρ").data,
    ("ρ αμ").data, ("ρ μ + πρόθ").data, ("ρ μ").data, ("έκφρ").data,
    ("περίφρ").data ]

/-- `ATTRIBUTES_EN` is a Python `set`; its (unspecified) iteration order is
modelled as the written order. -/
def ATTRIBUTES_EN : List (List Char) :=
  [ ("adj").data, ("adv").data, (" n").data, ("v expr").data, ("vi").data,
    ("vtr phrasal sep").data, ("vtr + prep").data, ("vtr").data ]

/-- Python `str.strip()`: drop whitespace from both ends. -/
def pyStrip (t : List Char) : List Char :=
  ((t.dropWhile Char.isWhitespace).reverse.dropWhile Char.isWhitespace).reverse

/-- `re.sub(re.escape(att) + "$", "", text)`: remove one trailing
occurrence of `att` (after `text.strip()` the `$` anchor can only match
at the very end of the string). -/
def removeSuffix (t pat : List Char) : List Char :=
  if pat.isSuffixOf t ∧ ¬pat.isEmpty then t.take (t.length - pat.length) else t

/-- One step of the `for att in attributes` body: strip the attribute,
then a trailing `+`. -/
def stripAttStep (t att : List Char) : List Char :=
  removeSuffix (removeSuffix t att) ['+']

/-- One pass of the fixed-point loop in `parse_words`: `text.strip()`
followed by the attribute subtractions. -/
def stripPass (attrs : List (List Char)) (t : List Char) : List Char :=
  attrs.foldl stripAttStep (pyStrip t)

/-- The `while True` fixed-point loop of `parse_words`.  A pass that
changes the text strictly shrinks it (all steps only delete characters),
so `t.length + 1` iterations are guaranteed to reach the fixed point. -/
def stripLoopGo (attrs : List (List Char)) : Nat → List Char → List Char
  | 0, t => t
  | fuel + 1, t =>
    let t2 := stripPass attrs t
    if t2 = t then t else stripLoopGo attrs fuel t2

def stripLoop (attrs : List (List Char)) (t : List Char) : List Char :=
  stripLoopGo attrs (t.length + 1) t

/-- Embeds `parse_words` of `wordref.py`: pick the attribute table by
language, run the stripping loop, split on `", "`. -/
def parse_words (t : List Char) : List (List Char) :=
  let attrs := if is_english t then ATTRIBUTES_EN else ATTRIBUTES_EL
  ((String.mk (stripLoop attrs t)).splitOn (String.mk [',', ' '])).map String.data

/-! ## The `Entry` data class (`entry.py`)

`gr_word` is declared `str` in the source but the direction swap in
`get_embed` assigns it `self.en_word`, which is `str | None`; both words
are therefore modelled as `Option (List Char)`.  The Python sets
`gr_synonyms`/`en_synonyms` are modelled as lists in iteration order. -/

structure EntryS where
  link : List Char
  gr_word : Option (List Char)
  gr_en : Bool
  hide_words : Bool
  min_sentences_shown : Nat
  max_sentences_shown : Nat
  is_random : Bool
  en_word : Option (List Char)
  gr_synonyms : List (List Char)
  en_synonyms : List (List Char)
  sentences : List (List Char × List Char)
  gr_pos : Option (List Char)
deriving DecidableEq

/-- Python truthiness of a `str | None` value. -/
def truthyOpt : Option (List Char) → Bool
  | none => false
  | some s => !s.isEmpty

/-- Python `f"{x}"` for a `str | None` value. -/
def pyStr : Option (List Char) → List Char
  | none => ("None").data
  | some s => s

/-- Embeds `Entry.is_valid_entry` (the `gr_pos` check only logs). -/
def is_valid_entry (e : EntryS) : Bool :=
  truthyOpt (some e.link) && truthyOpt e.gr_word && truthyOpt e.en_word &&
    !e.gr_synonyms.isEmpty && !e.en_synonyms.isEmpty &&
    decide (e.min_sentences_shown ≤ e.sentences.length)

/-- The sort key of `Entry.sort_sentences_by_contains_word`:
`self.gr_word in pair[0]` (resp. `self.en_word in pair[0]`). -/
def containsKey (e : EntryS) (pair : List Char × List Char) : Bool :=
  if e.gr_en then pyIn (pyStr e.gr_word) pair.1 else pyIn (pyStr e.en_word) pair.1

/-- Stable insertion by a numeric rank: an element goes after everything
of strictly smaller rank and before everything of equal or larger rank. -/
def stInsert (rank : List Char × List Char → Nat) (x : List Char × List Char) :
    List (List Char × List Char) → List (List Char × List Char)
  | [] => [x]
  | y :: ys => if rank y < rank x then y :: stInsert rank x ys else x :: y :: ys

/-- Stable insertion sort (ascending by rank). -/
def stSort (rank : List Char × List Char → Nat) :
    List (List Char × List Char) → List (List Char × List Char)
  | [] => []
  | x :: xs => stInsert rank x (stSort rank xs)

/-- Embeds `Entry.sort_sentences_by_contains_word`: CPython's
`list.sort(key=..., reverse=True)` is a stable sort that places
`key = True` elements first, i.e. an ascending stable sort by the rank
`True ↦ 0`, `False ↦ 1`. -/
def sort_sentences (e : EntryS) : List (List Char × List Char) :=
  stSort (fun pair => if containsKey e pair then 0 else 1) e.sentences

/-- The direction swap of `get_embed` (the `else` branch for
`gr_en = False`): swap `gr_word` with `en_word` and the two components
of every stored sentence pair, in place. -/
def swapGrEn (e : EntryS) : EntryS :=
  { e with
    gr_word := e.en_word
    en_word := e.gr_word
    sentences := e.sentences.map Prod.swap }

/-- The entry as it stands right after `get_embed`'s direction handling. -/
def preSorted (e : EntryS) : EntryS :=
  if e.gr_en then e else swapGrEn e

/-- The sentence pairs `get_embed` displays: the (possibly swapped) stored
list after `sort_sentences_by_contains_word`, truncated by the
`idx >= self.max_sentences_shown` break. -/
def sentencesShown (e : EntryS) : List (List Char × List Char) :=
  (sort_sentences (preSorted e)).take e.max_sentences_shown

/-! ## Embed rendering (`entry.py: get_embed`, `add_embed`) -/

structure EmbedS where
  title : List Char
  url : List Char
  description : List Char
  footer : List Char
deriving DecidableEq

/-- `len(embed)` in the chat library: the lengths of title, description
and footer text summed (no fields or author are ever set here). -/
def embedLen (m : EmbedS) : Nat :=
  m.title.length + m.description.length + m.footer.length

/-- ` - *{pos}*` when `self.gr_pos` is truthy, else the empty string. -/
def posOf (e : EntryS) : List Char :=
  match e.gr_pos with
  | some p => if p.isEmpty then [] else (" - *").data ++ p ++ ("*").data
  | none => []

def sepOf (e : EntryS) : List Char :=
  if e.hide_words then ("||").data else []

/-- `list(self.gr_synonyms - {self.gr_word})`, sorted stably so synonyms
without spaces come first, truncated to 2. -/
def synonymsListOf (e : EntryS) : List (List Char) :=
  let l := e.gr_synonyms.filter (fun s => s ≠ pyStr e.gr_word)
  ((l.filter (fun s => !(s.contains ' '))) ++ (l.filter (fun s => s.contains ' '))).take 2

def natStr (n : Nat) : List Char :=
  (Nat.repr n).data

/-- The two `> {idx+1}: ...` lines rendered for one sentence pair. -/
def sentenceLine (sep : List Char) (grS enS : List (List Char))
    (idx : Nat) (pair : List Char × List Char) : List Char :=
  ("> ").data ++ natStr (idx + 1) ++ (": ").data ++ highlight_synonyms pair.1 grS ++ ("\n").data ++
    ("> ").data ++ natStr (idx + 1) ++ (": ").data ++ sep ++ highlight_synonyms pair.2 enS ++
    sep ++ ("\n").data

/-- Embeds `Entry.get_embed`, returning both the built embed and the
mutated entry (the source mutates `self` via the direction swap and via
`sort_sentences_by_contains_word`). -/
def get_embed (e : EntryS)
    (show_pos show_translations show_synonyms show_sentences show_footer : Bool) :
    EmbedS × EntryS :=
  let e1 := preSorted e
  let pos := if e.gr_en then posOf e else []
  let pos := if show_pos then pos else []
  let title := ("∙∙∙∙∙ ").data ++ pyStr e1.gr_word ++ pos ++ (" ∙∙∙∙∙").data
  let sep := sepOf e
  let translations := ("**Translations:** ").data ++ sep ++ pyStr e1.en_word ++ sep ++ ("\n").data
  let synonyms := ("**Synonyms: **").data ++ sep ++
    List.intercalate ((", ").data) (synonymsListOf e1) ++ sep ++ ("\n").data
  let e2 : EntryS := { e1 with sentences := sort_sentences e1 }
  let sentences := ("**Sentences:**\n").data ++
    List.flatten (((e2.sentences.take e2.max_sentences_shown).enum).map
      (fun ip => sentenceLine sep e2.gr_synonyms e2.en_synonyms ip.1 ip.2))
  let description :=
    (if show_translations then translations else []) ++
    (if show_synonyms && synonyms ≠ ("**Synonyms:**").data then synonyms else []) ++
    (if show_sentences && sentences ≠ ("**Sentences:**\n").data then sentences else [])
  let footer := if show_footer then
    ("https://forvo.com/word/").data ++ pyStr e2.gr_word ++ ("/#el").data else []
  (⟨title, e2.link, description, footer⟩, e2)

/-- `Entry.add_embed()` builds the embed with the default options
(`show_synonyms=False`, everything else `True`). -/
def add_embed (e : EntryS) : EmbedS × EntryS :=
  get_embed e true true false true true

/-- Embeds `Entry.is_valid_embed`. -/
def is_valid_embed (m : EmbedS) : Bool :=
  !(decide (2000 ≤ embedLen m))

/-- Embeds `Wordref.try_fetch_embed`, applied to the entry produced by
`try_fetch_entry` (whose network scraping is abstracted away as the
argument): reject invalid entries, build the embed, reject oversized
embeds. -/
def try_fetch_embed (entry : EntryS) : Option EmbedS :=
  if !(is_valid_entry entry) then none
  else
    let emb := (add_embed entry).1
    if !(is_valid_embed emb) then none
    else some emb

/-! ## Fetch orchestration (`wordref.py: Wordref.fetch_embed`)

Each call of `try_fetch_embed` performs a fresh network fetch; the
successive outcomes are abstracted as an oracle `attempts : Nat → Option
EmbedS` giving the result of the `k`-th call. -/

/-- `self.max_random_iterations = 5` set in `Wordref.__init__`. -/
def max_random_iterations : Nat := 5

/-- `self.is_random = word is None` set in `Wordref.__init__`. -/
def isRandomInit (word : Option (List Char)) : Bool :=
  word.isNone

/-- The `for _ in range(...)` retry loop of `fetch_embed`.  Returns the
result together with the index one past the last call made, so that
starting from index 0 the second component is the number of
`try_fetch_embed` calls. -/
def fetchEmbedGo (attempts : Nat → Option EmbedS) : Nat → Nat → Option EmbedS × Nat
  | 0, idx => (none, idx)
  | n + 1, idx =>
    match attempts idx with
    | some m => (some m, idx + 1)
    | none => fetchEmbedGo attempts n (idx + 1)

/-- Embeds `Wordref.fetch_embed`: one call when not in random mode, else
up to `max_random_iterations` calls returning the first success. -/
def fetch_embed (attempts : Nat → Option EmbedS) (is_random : Bool) : Option EmbedS × Nat :=
  if !is_random then (attempts 0, 1)
  else fetchEmbedGo attempts max_random_iterations 0

/-! ## The caller boundary (`main.py: templ_wordref`)

`Wordref(word, ...).fetch_embed()` is abstracted as an oracle
`fetch : Option (List Char) → Option EmbedS` from the queried word to the
pipeline outcome, and `utils.fix_greek_spelling` (an external
network-backed collaborator) as `fix : List Char → List Char`. -/

/-- What `templ_wordref` finally sends: the embed, or the text
"The command did not succeed.". -/
inductive SentMessage where
  | embedMsg (m : EmbedS)
  | failureText
deriving DecidableEq

def mkMsg : Option EmbedS → SentMessage
  | some m => SentMessage.embedMsg m
  | none => SentMessage.failureText

/-- Embeds `templ_wordref` of `main.py`: run the pipeline once; on `None`
for a supplied word, fix the spelling and run the whole pipeline once
more.  The second component counts the pipeline runs. -/
def templ_wordref (fetch : Option (List Char) → Option EmbedS)
    (fix : List Char → List Char) (word : Option (List Char)) : SentMessage × Nat :=
  match word, fetch word with
  | some w, none => (mkMsg (fetch (some (fix w))), 2)
  | _, r => (mkMsg r, 1)

/-! ## Concrete values and derived predicates used by the verification -/

/-- `get_delta a b` succeeded with a value in the unit interval. -/
def delta_in_unit (a b : List Char) : Prop :=
  match get_delta a b with
  | some q => 0 ≤ q ∧ q ≤ 1
  | none => False

/-- The `k`-th attempt is the first to succeed, within the first `n`. -/
def first_success (attempts : Nat → Option EmbedS) (n : Nat) (m : EmbedS) : Prop :=
  ∃ k, k < n ∧ attempts k = some m ∧ ∀ j, j < k → attempts j = none

/-- A valid entry whose rendered embed is oversized (title and footer carry
a 2000-character word). -/
def entryBig : EntryS :=
  { link := ("https://wr").data
    gr_word := some (List.replicate 2000 'a')
    gr_en := true
    hide_words := false
    min_sentences_shown := 0
    max_sentences_shown := 2
    is_random := false
    en_word := some (("word").data)
    gr_synonyms := [("a").data]
    en_synonyms := [("b").data]
    sentences := []
    gr_pos := none }

/-- A small valid entry whose rendered embed fits. -/
def entrySmall : EntryS :=
  { link := ("https://wr").data
    gr_word := some (("χαρά").data)
    gr_en := true
    hide_words := false
    min_sentences_shown := 0
    max_sentences_shown := 2
    is_random := false
    en_word := some (("joy").data)
    gr_synonyms := [("χαρά").data]
    en_synonyms := [("joy").data]
    sentences := []
    gr_pos := none }

def embedSmall : EmbedS :=
  (add_embed entrySmall).1

/-- An entry whose second sentence pair contains the queried word while the
first does not, so the rendering reorders them. -/
def entryOrder : EntryS :=
  { link := ("l").data
    gr_word := some (("w").data)
    gr_en := true
    hide_words := false
    min_sentences_shown := 0
    max_sentences_shown := 2
    is_random := false
    en_word := some (("e").data)
    gr_synonyms := [("s").data]
    en_synonyms := [("t").data]
    sentences := [(("a").data, ("b").data), (("w").data, ("c").data)]
    gr_pos := none }

/-- An entry queried in the reverse direction (`gr_en = False`). -/
def entryRev : EntryS :=
  { link := ("l").data
    gr_word := some (("γ").data)
    gr_en := false
    hide_words := false
    min_sentences_shown := 0
    max_sentences_shown := 2
    is_random := false
    en_word := some (("g").data)
    gr_synonyms := [("s").data]
    en_synonyms := [("t").data]
    sentences := [(("γ1").data, ("g1").data), (("γ2").data, ("g2").data)]
    gr_pos := none }

def idFix : List Char → List Char :=
  fun w => w

def fetchFail : Option (List Char) → Option EmbedS :=
  fun _ => none

def fetchOk : Option (List Char) → Option EmbedS :=
  fun _ => some embedSmall

/-- Attempt oracle whose third try (index 2) succeeds. -/
def attemptsW : Nat → Option EmbedS :=
  fun k => if k = 2 then some embedSmall else none


/-! ## Helper lemmas -/

theorem lcsInner_le (a b : List Char) : ∀ fuel i, lcsInner a b fuel i ≤ max i a.length := by
  intro fuel
  induction fuel with
  | zero => intro i; simp [lcsInner]
  | succ f ih =>
    intro i
    simp only [lcsInner]
    split
    · rename_i h
      have h1 := ih (i + 1)
      have h2 : i + 1 ≤ a.length := h.2
      omega
    · exact Nat.le_max_left _ _

theorem lcsGo_le (b : List Char) : ∀ fuel a var, lcsGo b fuel a var ≤ max var a.length := by
  intro fuel
  induction fuel with
  | zero => intro a var; simp [lcsGo]
  | succ f ih =>
    intro a var
    match a with
    | [] => simp [lcsGo]
    | c :: rest =>
      simp only [lcsGo]
      have h1 := lcsInner_le (c :: rest) b (c :: rest).length 1
      have h2 := ih ((c :: rest).drop (lcsInner (c :: rest) b (c :: rest).length 1))
        (max (lcsInner (c :: rest) b (c :: rest).length 1 - 1) var)
      have h3 : ((c :: rest).drop (lcsInner (c :: rest) b (c :: rest).length 1)).length
          = (c :: rest).length - lcsInner (c :: rest) b (c :: rest).length 1 :=
        List.length_drop _ _
      have h4 : 1 ≤ (c :: rest).length := by simp
      omega

theorem lcs_le (a b : List Char) : lcs a b ≤ a.length := by
  unfold lcs
  split
  · exact Nat.le_refl _
  · have := lcsGo_le b a.length a 0
    omega

theorem lookup_mem {l : List (Char × List Char)} {c : Char} {v : List Char}
    (h : l.lookup c = some v) : (c, v) ∈ l := by
  induction l with
  | nil => simp [List.lookup] at h
  | cons p rest ih =>
    obtain ⟨k, w⟩ := p
    by_cases hk : c == k
    · simp only [List.lookup, hk] at h
      obtain rfl : c = k := by exact eq_of_beq hk
      obtain rfl : w = v := by simpa using h
      exact List.mem_cons_self _ _
    · simp only [List.lookup, hk] at h
      exact List.mem_cons_of_mem _ (ih h)

theorem normChar_fixed : ∀ c : Char, ∀ d ∈ normChar c, normChar d = [d] := by
  have hN : ∀ p ∈ nfkdTable,
      ∀ d ∈ ((p.2.flatMap casefoldChar).filter (fun x => !(combiningChar x))),
        normChar d = [d] := by decide
  have hC : ∀ p ∈ casefoldTable,
      ∀ d ∈ (p.2.filter (fun x => !(combiningChar x))), normChar d = [d] := by decide
  intro c d hd
  cases h1 : nfkdTable.lookup c with
  | some v =>
    have hv : normChar c = (v.flatMap casefoldChar).filter (fun x => !(combiningChar x)) := by
      simp [normChar, nfkdChar, h1]
    rw [hv] at hd
    exact hN (c, v) (lookup_mem h1) d hd
  | none =>
    have hc : nfkdChar c = [c] := by simp [nfkdChar, h1]
    rw [normChar, hc] at hd
    simp only [List.flatMap_cons, List.flatMap_nil, List.append_nil] at hd
    cases h2 : casefoldTable.lookup c with
    | some v =>
      have hcc : casefoldChar c = v := by simp [casefoldChar, h2]
      rw [hcc] at hd
      exact hC (c, v) (lookup_mem h2) d hd
    | none =>
      have hcc : casefoldChar c = [c] := by simp [casefoldChar, h2]
      rw [hcc] at hd
      by_cases hcb : combiningChar c
      · simp [hcb] at hd
      · simp [hcb] at hd
        subst hd
        simp [normChar, nfkdChar, casefoldChar, h1, h2, hcb]

theorem normalize_eq_flatMap (w : List Char) :
    normalize_greek_word w = w.flatMap normChar := by
  induction w with
  | nil => rfl
  | cons c w ih =>
    simp only [normalize_greek_word, List.flatMap_cons, List.flatMap_append,
      List.filter_append] at *
    rw [ih]
    rfl

theorem flatMap_id_of_mem {α : Type} (f : α → List α) :
    ∀ l : List α, (∀ d ∈ l, f d = [d]) → l.flatMap f = l := by
  intro l h
  induction l with
  | nil => rfl
  | cons x xs ih =>
    simp only [List.flatMap_cons]
    rw [h x (List.mem_cons_self _ _), ih (fun d hd => h d (List.mem_cons_of_mem _ hd))]
    rfl

theorem lcs_self (a : List Char) : lcs a a = a.length := by
  simp [lcs]

/-- `get_delta` with its `let`-bindings expanded. -/
theorem get_delta_def (a b : List Char) :
    get_delta a b
      = (if max (normalize_greek_word a).length (normalize_greek_word b).length = 0 then none
         else some (Rat.divInt
           (((max (normalize_greek_word a).length (normalize_greek_word b).length : Nat) : Int)
              - ((max (lcs (normalize_greek_word a) (normalize_greek_word b))
                  (lcs (normalize_greek_word b) (normalize_greek_word a)) : Nat) : Int))
           ((max (normalize_greek_word a).length (normalize_greek_word b).length : Nat) : Int))) :=
  rfl

theorem get_delta_zero_of_norm_eq (a b : List Char)
    (h : normalize_greek_word a = normalize_greek_word b)
    (h2 : normalize_greek_word a ≠ []) : get_delta a b = some 0 := by
  rw [get_delta_def, ← h, lcs_self]
  have hlen : (normalize_greek_word a).length ≠ 0 := by
    have := List.length_pos.mpr h2
    omega
  simp only [max_self]
  rw [if_neg hlen]
  simp

theorem get_delta_unit (a b : List Char)
    (h : ¬(normalize_greek_word a = [] ∧ normalize_greek_word b = [])) :
    ∃ q, get_delta a b = some q ∧ 0 ≤ q ∧ q ≤ 1 := by
  rw [get_delta_def]
  set na := normalize_greek_word a with hna
  set nb := normalize_greek_word b with hnb
  have hL : max na.length nb.length ≠ 0 := by
    rcases not_and_or.mp h with h1 | h1
    · have := List.length_pos.mpr h1
      omega
    · have := List.length_pos.mpr h1
      omega
  rw [if_neg hL]
  have h1 : lcs na nb ≤ na.length := lcs_le _ _
  have h2 : lcs nb na ≤ nb.length := lcs_le _ _
  refine ⟨_, rfl, ?_, ?_⟩
  · apply Rat.divInt_nonneg
    · omega
    · omega
  · rw [Rat.divInt_eq_div]
    have hpos : (0 : ℚ) < (((max na.length nb.length : Nat) : Int) : ℚ) := by
      have hp : (0 : Int) < ((max na.length nb.length : Nat) : Int) := by omega
      exact_mod_cast hp
    rw [div_le_one hpos]
    have hle : ((max na.length nb.length : Nat) : Int)
        - ((max (lcs na nb) (lcs nb na) : Nat) : Int)
        ≤ ((max na.length nb.length : Nat) : Int) := by omega
    exact_mod_cast hle

theorem stInsert_skip (rank : List Char × List Char → Nat) (x : List Char × List Char) :
    ∀ l1 l2, (∀ y ∈ l1, rank y < rank x) →
      stInsert rank x (l1 ++ l2) = l1 ++ stInsert rank x l2 := by
  intro l1
  induction l1 with
  | nil => intro l2 _; rfl
  | cons y ys ih =>
    intro l2 h
    simp only [List.cons_append, stInsert, List.append_eq]
    rw [if_pos (h y (List.mem_cons_self _ _))]
    rw [ih l2 (fun z hz => h z (List.mem_cons_of_mem _ hz))]

theorem stInsert_front (rank : List Char × List Char → Nat) (x : List Char × List Char) :
    ∀ l, (∀ y ∈ l, ¬(rank y < rank x)) → stInsert rank x l = x :: l := by
  intro l h
  cases l with
  | nil => rfl
  | cons y ys =>
    simp only [stInsert]
    rw [if_neg (h y (List.mem_cons_self _ _))]

theorem stSort_partition (k : List Char × List Char → Bool) :
    ∀ l, stSort (fun p => if k p then 0 else 1) l
      = l.filter k ++ l.filter (fun p => !(k p)) := by
  intro l
  induction l with
  | nil => rfl
  | cons x xs ih =>
    simp only [stSort, ih]
    by_cases hx : k x
    · rw [stInsert_front]
      · simp [hx]
      · intro y _
        simp [hx]
    · rw [stInsert_skip _ _ (xs.filter k) (xs.filter (fun p => !(k p)))]
      · rw [stInsert_front]
        · simp [hx]
        · intro y hy
          have hyf : k y = false := by
            have := (List.mem_filter.mp hy).2
            simpa using this
          simp [hx, hyf]
      · intro y hy
        have hyt : k y = true := (List.mem_filter.mp hy).2
        simp [hx, hyt]

theorem sort_sentences_eq_partition (e : EntryS) :
    sort_sentences e
      = e.sentences.filter (containsKey e)
        ++ e.sentences.filter (fun p => !(containsKey e p)) :=
  stSort_partition (containsKey e) e.sentences

theorem mem_sort_sentences (e : EntryS) (p : List Char × List Char) :
    p ∈ sort_sentences e ↔ p ∈ e.sentences := by
  rw [sort_sentences_eq_partition]
  constructor
  · intro h
    rcases List.mem_append.mp h with h | h
    · exact (List.mem_filter.mp h).1
    · exact (List.mem_filter.mp h).1
  · intro h
    by_cases hk : containsKey e p
    · exact List.mem_append.mpr (Or.inl (List.mem_filter.mpr ⟨h, hk⟩))
    · refine List.mem_append.mpr (Or.inr (List.mem_filter.mpr ⟨h, ?_⟩))
      simp [hk]

theorem length_sort_sentences (e : EntryS) :
    (sort_sentences e).length = e.sentences.length := by
  rw [sort_sentences_eq_partition, List.length_append]
  induction e.sentences with
  | nil => rfl
  | cons x xs ih =>
    by_cases hk : containsKey e x <;> simp [List.filter_cons, hk] <;> omega

theorem removeSuffix_length_le (t pat : List Char) :
    (removeSuffix t pat).length ≤ t.length := by
  unfold removeSuffix
  split
  · simp
  · exact Nat.le_refl _

theorem removeSuffix_eq_of_length (t pat : List Char)
    (h : (removeSuffix t pat).length = t.length) : removeSuffix t pat = t := by
  unfold removeSuffix at *
  split at h
  · rename_i hc
    have hp : pat.length ≠ 0 := by
      have hne : ¬pat.isEmpty := hc.2
      cases pat with
      | nil => simp at hne
      | cons x xs => simp
    rw [List.length_take] at h
    have ht : t.length = 0 := by omega
    have ht2 : t = [] := List.length_eq_zero.mp ht
    subst ht2
    simp
  · rename_i hc
    rw [if_neg hc]

theorem length_dropWhile_le' (p : Char → Bool) (t : List Char) :
    (t.dropWhile p).length ≤ t.length :=
  (List.dropWhile_suffix p).length_le

theorem pyStrip_length_le (t : List Char) : (pyStrip t).length ≤ t.length := by
  unfold pyStrip
  have h1 := length_dropWhile_le' Char.isWhitespace t
  have h2 := length_dropWhile_le' Char.isWhitespace (t.dropWhile Char.isWhitespace).reverse
  simp only [List.length_reverse] at *
  omega

theorem dropWhile_eq_of_length {p : Char → Bool} {t : List Char}
    (h : (t.dropWhile p).length = t.length) : t.dropWhile p = t :=
  (List.dropWhile_suffix p).eq_of_length h

theorem pyStrip_eq_of_length (t : List Char)
    (h : (pyStrip t).length = t.length) : pyStrip t = t := by
  unfold pyStrip at *
  have h1 := length_dropWhile_le' Char.isWhitespace t
  have h2 := length_dropWhile_le' Char.isWhitespace (t.dropWhile Char.isWhitespace).reverse
  simp only [List.length_reverse] at h h2
  have e2 : ((t.dropWhile Char.isWhitespace).reverse.dropWhile Char.isWhitespace).length
      = (t.dropWhile Char.isWhitespace).reverse.length := by
    simp only [List.length_reverse]
    omega
  rw [dropWhile_eq_of_length e2, List.reverse_reverse]
  have e1 : (t.dropWhile Char.isWhitespace).length = t.length := by omega
  exact dropWhile_eq_of_length e1

theorem stripAttStep_length_le (t att : List Char) :
    (stripAttStep t att).length ≤ t.length := by
  unfold stripAttStep
  exact Nat.le_trans (removeSuffix_length_le _ _) (removeSuffix_length_le _ _)

theorem stripAttStep_eq_of_length (t att : List Char)
    (h : (stripAttStep t att).length = t.length) : stripAttStep t att = t := by
  unfold stripAttStep at *
  have h1 : (removeSuffix t att).length ≤ t.length := removeSuffix_length_le _ _
  have h2 : (removeSuffix (removeSuffix t att) ['+']).length
      ≤ (removeSuffix t att).length := removeSuffix_length_le _ _
  have e1 : (removeSuffix t att).length = t.length := by omega
  have he := removeSuffix_eq_of_length _ _ e1
  rw [he] at h ⊢
  exact removeSuffix_eq_of_length _ _ h

theorem foldl_stripAttStep_length_le (attrs : List (List Char)) :
    ∀ init : List Char, (attrs.foldl stripAttStep init).length ≤ init.length := by
  induction attrs with
  | nil => intro init; exact Nat.le_refl _
  | cons a as ih =>
    intro init
    simp only [List.foldl_cons]
    exact Nat.le_trans (ih _) (stripAttStep_length_le _ _)

theorem foldl_stripAttStep_eq_of_length (attrs : List (List Char)) :
    ∀ init : List Char, (attrs.foldl stripAttStep init).length = init.length →
      attrs.foldl stripAttStep init = init := by
  induction attrs with
  | nil => intro init _; rfl
  | cons a as ih =>
    intro init h
    simp only [List.foldl_cons] at h ⊢
    have h1 : (as.foldl stripAttStep (stripAttStep init a)).length
        ≤ (stripAttStep init a).length := foldl_stripAttStep_length_le _ _
    have h2 : (stripAttStep init a).length ≤ init.length := stripAttStep_length_le _ _
    have e1 : (stripAttStep init a).length = init.length := by omega
    have he := stripAttStep_eq_of_length _ _ e1
    rw [he] at h ⊢
    exact ih _ h

theorem stripPass_length_le (attrs : List (List Char)) (t : List Char) :
    (stripPass attrs t).length ≤ t.length := by
  unfold stripPass
  exact Nat.le_trans (foldl_stripAttStep_length_le _ _) (pyStrip_length_le _)

theorem stripPass_length_lt (attrs : List (List Char)) (t : List Char)
    (h : stripPass attrs t ≠ t) : (stripPass attrs t).length < t.length := by
  by_contra hlt
  have hle := stripPass_length_le attrs t
  have he : (stripPass attrs t).length = t.length := by omega
  apply h
  unfold stripPass at he ⊢
  have h1 : (attrs.foldl stripAttStep (pyStrip t)).length ≤ (pyStrip t).length :=
    foldl_stripAttStep_length_le _ _
  have h2 : (pyStrip t).length ≤ t.length := pyStrip_length_le _
  have e1 : (pyStrip t).length = t.length := by omega
  have hps := pyStrip_eq_of_length _ e1
  rw [hps] at he ⊢
  exact foldl_stripAttStep_eq_of_length _ _ he

theorem stripLoopGo_fix (attrs : List (List Char)) :
    ∀ fuel t, t.length < fuel →
      stripPass attrs (stripLoopGo attrs fuel t) = stripLoopGo attrs fuel t := by
  intro fuel
  induction fuel with
  | zero => intro t h; omega
  | succ f ih =>
    intro t h
    simp only [stripLoopGo]
    by_cases hfix : stripPass attrs t = t
    · rw [if_pos hfix]
      exact hfix
    · rw [if_neg hfix]
      apply ih
      have := stripPass_length_lt attrs t hfix
      omega

theorem stripLoop_fix (attrs : List (List Char)) (t : List Char) :
    stripPass attrs (stripLoop attrs t) = stripLoop attrs t :=
  stripLoopGo_fix attrs (t.length + 1) t (by omega)

theorem fetchEmbedGo_calls (attempts : Nat → Option EmbedS) :
    ∀ n idx, (fetchEmbedGo attempts n idx).2 ≤ idx + n := by
  intro n
  induction n with
  | zero => intro idx; simp [fetchEmbedGo]
  | succ m ih =>
    intro idx
    simp only [fetchEmbedGo]
    cases h : attempts idx with
    | some x => simp
    | none =>
      have h2 := ih (idx + 1)
      simp only
      omega

theorem fetchEmbedGo_none_iff (attempts : Nat → Option EmbedS) :
    ∀ n idx, (fetchEmbedGo attempts n idx).1 = none
      ↔ ∀ k, k < n → attempts (idx + k) = none := by
  intro n
  induction n with
  | zero => intro idx; simp [fetchEmbedGo]
  | succ m ih =>
    intro idx
    simp only [fetchEmbedGo]
    cases h : attempts idx with
    | some x =>
      simp only
      constructor
      · intro hc; cases hc
      · intro hall
        have h0 := hall 0 (by omega)
        simp [h] at h0
    | none =>
      simp only
      rw [ih (idx + 1)]
      constructor
      · intro hall k hk
        cases k with
        | zero => simpa using h
        | succ j =>
          have hj := hall j (by omega)
          have harith : idx + 1 + j = idx + (j + 1) := by omega
          rwa [harith] at hj
      · intro hall k hk
        have hk1 := hall (k + 1) (by omega)
        have harith : idx + (k + 1) = idx + 1 + k := by omega
        rwa [harith] at hk1

theorem fetchEmbedGo_first (attempts : Nat → Option EmbedS) :
    ∀ n idx m, (fetchEmbedGo attempts n idx).1 = some m →
      ∃ k, k < n ∧ attempts (idx + k) = some m ∧
        (∀ j, j < k → attempts (idx + j) = none) ∧
        (fetchEmbedGo attempts n idx).2 = idx + k + 1 := by
  intro n
  induction n with
  | zero => intro idx m h; simp [fetchEmbedGo] at h
  | succ nn ih =>
    intro idx m h
    rcases hcase : attempts idx with _ | x
    · rw [show fetchEmbedGo attempts (nn + 1) idx = fetchEmbedGo attempts nn (idx + 1) from by
        simp [fetchEmbedGo, hcase]] at h ⊢
      obtain ⟨k, hk, hat, hbefore, hcalls⟩ := ih (idx + 1) m h
      refine ⟨k + 1, by omega, ?_, ?_, ?_⟩
      · have harith : idx + (k + 1) = idx + 1 + k := by omega
        rwa [harith]
      · intro j hj
        cases j with
        | zero => simpa using hcase
        | succ jj =>
          have hjj := hbefore jj (by omega)
          have harith : idx + (jj + 1) = idx + 1 + jj := by omega
          rwa [harith]
      · omega
    · have hres : fetchEmbedGo attempts (nn + 1) idx = (some x, idx + 1) := by
        simp [fetchEmbedGo, hcase]
      rw [hres] at h ⊢
      simp only at h
      obtain rfl : x = m := by simpa using h
      exact ⟨0, by omega, by simpa using hcase, by omega, by simp⟩

/-! ## The claims -/

/-- C1: the claim says `lcs(a, b)` returns the length of the longest
contiguous substring of `a` occurring in `b` (as does the source
docstring), but on `a = "ab"`, `b = "xaby"` the code returns 1 while the
common substring "ab" (which `pyIn` confirms occurs in `b`) has length 2:
`i < len(a)` stops the inner scan one character short of a full-suffix
match, and `a = a[i:]` then skips past it.  The `a == b` short-circuit
does return `len(a)`. -/
theorem C1_lcs_undercounts :
    lcs (['a', 'b']) (['x', 'a', 'b', 'y']) = 1 ∧
      lcsSpec (['a', 'b']) (['x', 'a', 'b', 'y']) = 2 ∧
      pyIn (['a', 'b']) (['x', 'a', 'b', 'y']) = true ∧
      lcs (['a', 'b']) (['a', 'b']) = 2 := by
  decide

/-- C9: `normalize_greek_word` is idempotent on every string. -/
theorem C9_normalize_idempotent (w : List Char) :
    normalize_greek_word (normalize_greek_word w) = normalize_greek_word w := by
  rw [normalize_eq_flatMap w, normalize_eq_flatMap (w.flatMap normChar)]
  apply flatMap_id_of_mem
  intro d hd
  obtain ⟨c, _, hdc⟩ := List.mem_flatMap.mp hd
  exact normChar_fixed c d hdc

/-- C5: strings that normalisation maps to the same (non-empty) string —
accent and case variants of one base word — have `get_delta` equal to 0;
in particular `get_delta("Άλφα", "αλφα") = 0`. -/
theorem C5_variants_delta_zero (a b : List Char)
    (h : normalize_greek_word a = normalize_greek_word b)
    (h2 : normalize_greek_word a ≠ []) :
    get_delta a b = some 0 :=
  get_delta_zero_of_norm_eq a b h h2

theorem C5_witness :
    normalize_greek_word (("Άλφα").data) = normalize_greek_word (("αλφα").data) ∧
      get_delta (("Άλφα").data) (("αλφα").data) = some 0 :=
  ⟨by decide,
   C5_variants_delta_zero (("Άλφα").data) (("αλφα").data) (by decide) (by decide)⟩

/-- C4 counterexample: the combining acute accent is a non-empty string
whose normalisation is empty, so `get_delta(a, a)` is not 0 there — the
source raises `ZeroDivisionError` (modelled as `none`). -/
theorem C4_counterexample :
    (['́'] : List Char) ≠ [] ∧ get_delta ['́'] ['́'] = none ∧
      get_delta ['́'] ['́'] ≠ some 0 := by
  decide

/-- C4 (amended): for every string that normalises to a non-empty string,
`get_delta(a, a) = 0`; and whenever the two normalisations are not both
empty, `get_delta(a, b)` is defined and lies in `[0, 1]`. -/
theorem C4_delta_bounds (a b : List Char) :
    (normalize_greek_word a ≠ [] → get_delta a a = some 0) ∧
      (¬(normalize_greek_word a = [] ∧ normalize_greek_word b = []) →
        delta_in_unit a b) := by
  constructor
  · intro h
    exact get_delta_zero_of_norm_eq a a rfl h
  · intro h
    obtain ⟨q, hq, h0, h1⟩ := get_delta_unit a b h
    unfold delta_in_unit
    rw [hq]
    exact ⟨h0, h1⟩

theorem C4_witness :
    (normalize_greek_word (("αλφα").data) ≠ [] ∧
      get_delta (("αλφα").data) (("αλφα").data) = some 0) ∧
      delta_in_unit (("αλφα").data) (("ab").data) :=
  ⟨⟨by decide, (C4_delta_bounds (("αλφα").data) (("αλφα").data)).1 (by decide)⟩,
   (C4_delta_bounds (("αλφα").data) (("ab").data)).2 (by decide)⟩

/-- C6: the annotation-stripping fixed-point loop of `parse_words`
terminates with a fixed point of the stripping pass (for any attribute
table, in particular `ATTRIBUTES_EN` and `ATTRIBUTES_EL`), and running
the loop again on its own output returns it unchanged. -/
theorem C6_strip_idempotent (attrs : List (List Char)) (t : List Char) :
    stripPass attrs (stripLoop attrs t) = stripLoop attrs t ∧
      stripLoop attrs (stripLoop attrs t) = stripLoop attrs t := by
  have h := stripLoop_fix attrs t
  refine ⟨h, ?_⟩
  show stripLoopGo attrs ((stripLoop attrs t).length + 1) (stripLoop attrs t)
      = stripLoop attrs t
  simp [stripLoopGo, h]

/-- C2: an entry whose built embed serialises to 2000 or more is rejected
by `try_fetch_embed` (it returns `none`, never a truncated message), and
any embed it does return has serialised length strictly below 2000. -/
theorem C2_size_guard (e : EntryS) (m : EmbedS) :
    (2000 ≤ embedLen ((add_embed e).1) → try_fetch_embed e = none) ∧
      (try_fetch_embed e = some m → embedLen m < 2000) := by
  have hdef : try_fetch_embed e
      = if !(is_valid_entry e) then none
        else (if !(is_valid_embed ((add_embed e).1)) then none
              else some ((add_embed e).1)) := rfl
  constructor
  · intro h
    rw [hdef]
    by_cases hv : is_valid_entry e
    · have hinv : is_valid_embed ((add_embed e).1) = false := by
        simp [is_valid_embed, h]
      simp [hv, hinv]
    · have hv' : is_valid_entry e = false := by simpa using hv
      simp [hv']
  · intro h
    rw [hdef] at h
    by_cases hv : is_valid_entry e
    · by_cases hb : is_valid_embed ((add_embed e).1)
      · simp [hv, hb] at h
        have hlt : ¬(2000 ≤ embedLen ((add_embed e).1)) := by
          simpa [is_valid_embed] using hb
        rw [← h]
        omega
      · have hb' : is_valid_embed ((add_embed e).1) = false := by simpa using hb
        simp [hv, hb'] at h
    · have hv' : is_valid_entry e = false := by simpa using hv
      simp [hv'] at h

theorem C2_witness :
    (2000 ≤ embedLen ((add_embed entryBig).1) ∧ try_fetch_embed entryBig = none) ∧
      (try_fetch_embed entrySmall = some embedSmall ∧ embedLen embedSmall < 2000) := by
  have ht : (add_embed entryBig).1.title
      = ("∙∙∙∙∙ ").data ++ List.replicate 2000 'a' ++ [] ++ (" ∙∙∙∙∙").data := rfl
  have h1 : 2000 ≤ (add_embed entryBig).1.title.length := by
    rw [ht]
    simp only [List.length_append, List.length_replicate]
    omega
  have h2 : embedLen ((add_embed entryBig).1)
      = (add_embed entryBig).1.title.length + (add_embed entryBig).1.description.length
        + (add_embed entryBig).1.footer.length := rfl
  have hBig : 2000 ≤ embedLen ((add_embed entryBig).1) := by omega
  exact ⟨⟨hBig, (C2_size_guard entryBig embedSmall).1 hBig⟩,
    ⟨by decide, (C2_size_guard entrySmall embedSmall).2 (by decide)⟩⟩

/-- C8 counterexample: the claim says the sentence pairs are shown in
stored list order with no additional sorting, but `get_embed` calls
`sort_sentences_by_contains_word` first: for `entryOrder` the pair
containing the queried word jumps ahead of an earlier stored pair. -/
theorem C8_counterexample :
    (add_embed entryOrder).2.sentences.take entryOrder.max_sentences_shown
      ≠ entryOrder.sentences.take entryOrder.max_sentences_shown := by
  decide

/-- C8 (amended): the displayed sentence pairs are the stored (and, for a
reverse query, swapped) list after one stable partition — pairs whose
first component contains the queried word first, each side in stored
order — truncated to `max_sentences_shown`; no other reordering. -/
theorem C8_display_order (e : EntryS) :
    (add_embed e).2.sentences
        = (preSorted e).sentences.filter (containsKey (preSorted e))
          ++ (preSorted e).sentences.filter (fun p => !(containsKey (preSorted e) p)) ∧
      (add_embed e).2.sentences.take e.max_sentences_shown
        = ((preSorted e).sentences.filter (containsKey (preSorted e))
          ++ (preSorted e).sentences.filter
              (fun p => !(containsKey (preSorted e) p))).take e.max_sentences_shown := by
  have h : (add_embed e).2.sentences = sort_sentences (preSorted e) := rfl
  rw [h, sort_sentences_eq_partition]
  exact ⟨rfl, rfl⟩

/-- C10: when `gr_en` is false, `get_embed` (with `add_embed`'s defaults)
mutates the entry: afterwards `gr_word` and `en_word` are exchanged and
every stored sentence pair appears with its components swapped (the same
pairs, also in number); and applying the swap twice is the identity. -/
theorem C10_swap_involution (e : EntryS) :
    (e.gr_en = false →
      (add_embed e).2.gr_word = e.en_word ∧
        (add_embed e).2.en_word = e.gr_word ∧
        (add_embed e).2.sentences.length = e.sentences.length ∧
        (∀ p ∈ e.sentences, Prod.swap p ∈ (add_embed e).2.sentences)) ∧
      swapGrEn (swapGrEn e) = e := by
  constructor
  · intro hgr
    have he1 : preSorted e = swapGrEn e := by
      simp [preSorted, hgr]
    have hsen : (add_embed e).2.sentences = sort_sentences (preSorted e) := rfl
    have hw : (add_embed e).2.gr_word = (preSorted e).gr_word := rfl
    have hw2 : (add_embed e).2.en_word = (preSorted e).en_word := rfl
    refine ⟨?_, ?_, ?_, ?_⟩
    · rw [hw, he1]
      rfl
    · rw [hw2, he1]
      rfl
    · rw [hsen, he1, length_sort_sentences]
      simp [swapGrEn]
    · intro p hp
      rw [hsen, he1, mem_sort_sentences]
      show Prod.swap p ∈ (swapGrEn e).sentences
      have : (swapGrEn e).sentences = e.sentences.map Prod.swap := rfl
      rw [this]
      exact List.mem_map_of_mem Prod.swap hp
  · cases e with
    | mk l g ge hw mins maxs isr en gs es sen pos =>
      simp only [swapGrEn]
      congr 1
      rw [List.map_map]
      have hcomp : Prod.swap ∘ Prod.swap = (id : List Char × List Char → List Char × List Char) := by
        funext p
        simp
      rw [hcomp, List.map_id]

theorem C10_witness :
    (add_embed entryRev).2.gr_word = entryRev.en_word ∧
      (add_embed entryRev).2.en_word = entryRev.gr_word ∧
      (add_embed entryRev).2.sentences.length = entryRev.sentences.length ∧
      Prod.swap ((("γ1").data, ("g1").data)) ∈ (add_embed entryRev).2.sentences ∧
      swapGrEn (swapGrEn entryRev) = entryRev := by
  have h := C10_swap_involution entryRev
  obtain ⟨h1, h2, h3, h4⟩ := h.1 rfl
  exact ⟨h1, h2, h3, h4 _ (by decide), h.2⟩

/-- C3: at the caller boundary, a supplied word whose first pipeline run
fails is retried exactly once with the corrected spelling — the result is
then whatever the second run returns, with exactly 2 pipeline runs and
never more; a first success is returned after 1 run; with no word
supplied there is a single run and no correction retry. -/
theorem C3_retry_once (fetch : Option (List Char) → Option EmbedS)
    (fix : List Char → List Char) :
    (∀ w, fetch (some w) = none →
      templ_wordref fetch fix (some w) = (mkMsg (fetch (some (fix w))), 2)) ∧
      (∀ w r, fetch (some w) = some r →
        templ_wordref fetch fix (some w) = (SentMessage.embedMsg r, 1)) ∧
      templ_wordref fetch fix none = (mkMsg (fetch none), 1) ∧
      (∀ word, (templ_wordref fetch fix word).2 ≤ 2) := by
  refine ⟨?_, ?_, ?_, ?_⟩
  · intro w h
    simp [templ_wordref, h]
  · intro w r h
    simp [templ_wordref, h, mkMsg]
  · rfl
  · intro word
    cases word with
    | none => simp [templ_wordref]
    | some w =>
      cases h : fetch (some w) with
      | none => simp [templ_wordref, h]
      | some r => simp [templ_wordref, h]

theorem C3_witness :
    templ_wordref fetchFail idFix (some (("α").data))
        = (mkMsg (fetchFail (some (idFix (("α").data)))), 2) ∧
      templ_wordref fetchOk idFix (some (("α").data))
        = (SentMessage.embedMsg embedSmall, 1) ∧
      templ_wordref fetchFail idFix none = (mkMsg (fetchFail none), 1) ∧
      (templ_wordref fetchFail idFix (some (("β").data))).2 ≤ 2 :=
  ⟨(C3_retry_once fetchFail idFix).1 (("α").data) rfl,
   (C3_retry_once fetchOk idFix).2.1 (("α").data) embedSmall rfl,
   (C3_retry_once fetchFail idFix).2.2.1,
   (C3_retry_once fetchFail idFix).2.2.2 (some (("β").data))⟩

/-- C7: with a supplied word `fetch_embed` calls the pipeline exactly once
and returns that call's result; in random mode (no word) it makes at most
`max_random_iterations = 5` calls, returns `none` exactly when all 5
attempts fail, and otherwise returns the first successful attempt. -/
theorem C7_fetch_attempts (attempts : Nat → Option EmbedS) (word : Option (List Char)) :
    (word.isSome → fetch_embed attempts (isRandomInit word) = (attempts 0, 1)) ∧
      (word = none →
        (fetch_embed attempts (isRandomInit word)).2 ≤ max_random_iterations ∧
          ((fetch_embed attempts (isRandomInit word)).1 = none
            ↔ ∀ k, k < max_random_iterations → attempts k = none) ∧
          (∀ m, (fetch_embed attempts (isRandomInit word)).1 = some m →
            first_success attempts max_random_iterations m)) := by
  constructor
  · intro h
    cases word with
    | none => simp at h
    | some w => rfl
  · intro h
    subst h
    have hrand : fetch_embed attempts (isRandomInit none)
        = fetchEmbedGo attempts max_random_iterations 0 := rfl
    rw [hrand]
    refine ⟨?_, ?_, ?_⟩
    · have := fetchEmbedGo_calls attempts max_random_iterations 0
      omega
    · rw [fetchEmbedGo_none_iff]
      constructor
      · intro hall k hk
        have := hall k hk
        simpa using this
      · intro hall k hk
        simpa using hall k hk
    · intro m hm
      obtain ⟨k, hk, hat, hbefore, _⟩ := fetchEmbedGo_first attempts max_random_iterations 0 m hm
      refine ⟨k, hk, by simpa using hat, ?_⟩
      intro j hj
      simpa using hbefore j hj

theorem C7_witness :
    fetch_embed attemptsW (isRandomInit (some (("α").data))) = (attemptsW 0, 1) ∧
      (fetch_embed attemptsW (isRandomInit none)).2 ≤ max_random_iterations ∧
      first_success attemptsW max_random_iterations embedSmall :=
  ⟨(C7_fetch_attempts attemptsW (some (("α").data))).1 rfl,
   ((C7_fetch_attempts attemptsW none).2 rfl).1,
   ((C7_fetch_attempts attemptsW none).2 rfl).2.2 embedSmall (by decide)⟩

/-! ## Fuel adequacy

The iteration budgets used above do not influence the functions' values:
any budget at least as large as the one supplied yields the same result,
so the embeddings compute exactly what the source's unbounded `while`
loops compute. -/

theorem lcsInner_ge (a b : List Char) : ∀ fuel i, i ≤ lcsInner a b fuel i := by
  intro fuel
  induction fuel with
  | zero => intro i; exact Nat.le_refl _
  | succ f ih =>
    intro i
    simp only [lcsInner]
    split
    · exact Nat.le_trans (by omega) (ih (i + 1))
    · exact Nat.le_refl _

theorem lcsInner_stable (a b : List Char) :
    ∀ f g i, a.length ≤ i + f → a.length ≤ i + g →
      lcsInner a b f i = lcsInner a b g i := by
  intro f
  induction f with
  | zero =>
    intro g i hf hg
    cases g with
    | zero => rfl
    | succ h =>
      simp only [lcsInner]
      rw [if_neg]
      intro hc
      omega
  | succ f ih =>
    intro g i hf hg
    cases g with
    | zero =>
      simp only [lcsInner]
      rw [if_neg]
      intro hc
      omega
    | succ h =>
      simp only [lcsInner]
      by_cases hc : pyIn (a.take i) b ∧ i < a.length
      · rw [if_pos hc, if_pos hc]
        exact ih h (i + 1) (by omega) (by omega)
      · rw [if_neg hc, if_neg hc]

theorem lcsGo_stable (b : List Char) :
    ∀ f g a var, a.length ≤ f → a.length ≤ g →
      lcsGo b f a var = lcsGo b g a var := by
  intro f
  induction f with
  | zero =>
    intro g a var hf hg
    have ha : a = [] := List.length_eq_zero.mp (by omega)
    subst ha
    cases g with
    | zero => rfl
    | succ h => rfl
  | succ f ih =>
    intro g a var hf hg
    cases a with
    | nil =>
      cases g with
      | zero => rfl
      | succ h => rfl
    | cons c rest =>
      cases g with
      | zero => simp at hg
      | succ h =>
        simp only [lcsGo]
        have h1 : 1 ≤ lcsInner (c :: rest) b (c :: rest).length 1 :=
          lcsInner_ge (c :: rest) b (c :: rest).length 1
        have h2 : ((c :: rest).drop (lcsInner (c :: rest) b (c :: rest).length 1)).length
            = (c :: rest).length - lcsInner (c :: rest) b (c :: rest).length 1 :=
          List.length_drop _ _
        have h3 : (c :: rest).length = rest.length + 1 := by simp
        exact ih h _ _ (by omega) (by omega)

theorem lcs_fuel_adequate (a b : List Char) :
    ∀ f, a.length ≤ f → (if a = b then a.length else lcsGo b f a 0) = lcs a b := by
  intro f hf
  unfold lcs
  by_cases h : a = b
  · rw [if_pos h, if_pos h]
  · rw [if_neg h, if_neg h]
    exact lcsGo_stable b f a.length a 0 hf (Nat.le_refl _)

theorem stripLoopGo_stable (attrs : List (List Char)) :
    ∀ f g t, t.length < f → t.length < g →
      stripLoopGo attrs f t = stripLoopGo attrs g t := by
  intro f
  induction f with
  | zero => intro g t hf; omega
  | succ f ih =>
    intro g t hf hg
    cases g with
    | zero => omega
    | succ h =>
      simp only [stripLoopGo]
      by_cases hfix : stripPass attrs t = t
      · rw [if_pos hfix, if_pos hfix]
      · rw [if_neg hfix, if_neg hfix]
        have := stripPass_length_lt attrs t hfix
        exact ih h _ (by omega) (by omega)

theorem pyReplaceGo_stable (pat rep : List Char) (hpat : ¬pat.isEmpty) :
    ∀ f g s, s.length ≤ f → s.length ≤ g →
      pyReplaceGo pat rep f s = pyReplaceGo pat rep g s := by
  have hplen : 1 ≤ pat.length := by
    cases pat with
    | nil => simp at hpat
    | cons x xs => simp
  intro f
  induction f with
  | zero =>
    intro g s hf hg
    have hs : s = [] := List.length_eq_zero.mp (by omega)
    subst hs
    cases g with
    | zero => rfl
    | succ h => rfl
  | succ f ih =>
    intro g s hf hg
    cases s with
    | nil =>
      cases g with
      | zero => rfl
      | succ h => rfl
    | cons c rest =>
      cases g with
      | zero => simp at hg
      | succ h =>
        simp only [pyReplaceGo]
        by_cases hc : pat.isPrefixOf (c :: rest)
        · rw [if_pos hc, if_pos hc]
          congr 1
          have h2 : ((c :: rest).drop pat.length).length
              = (c :: rest).length - pat.length := List.length_drop _ _
          have h3 : (c :: rest).length = rest.length + 1 := by simp
          exact ih h _ (by omega) (by omega)
        · rw [if_neg hc, if_neg hc]
          congr 1
          have h3 : (c :: rest).length = rest.length + 1 := by simp
          exact ih h rest (by omega) (by omega)
